import Mathlib

/-!
# Verification of the reciprocating lock (`reciplock.h`) of benchkit

This development embeds the reciprocating-lock algorithm of
`examples/tilt/deps/reciplock/include/reciplock.h` (Dice & Kogan,
"Reciprocating Locks") as a small-step interleaving state machine and
proves its key properties: mutual exclusion, the slow-path release
safety assertions, well-formedness of the acquire context, and the
behaviour of the individual branches of `reciplock_acquire` and
`reciplock_release`.

Pointer values are modelled abstractly: each thread `t : Nat` owns one
wait node (`tls_wait_node` of that thread), `NULL` is `Ref.free`, and
the reserved sentinel `LOCKED_EMPTY` (address 1) is `Ref.heldEmpty`.
All atomics execute as single interleaved steps (sequentially
consistent interleaving semantics).
-/

namespace Reciplock

/-- A value of pointer type `reciplock_node_t *` in the C code:
`NULL` (`free`), the reserved sentinel `LOCKED_EMPTY = (reciplock_node_t *)1`
(`heldEmpty`), or the address of thread `t`'s `tls_wait_node` (`node t`). -/
inductive Ref where
  | free
  | heldEmpty
  | node (t : Nat)
deriving DecidableEq, Repr

/-- `succ = (reciplock_node_t *)(((uintptr_t) tail_prev) & ~1)`: coerce
`LOCKED_EMPTY` (address 1) to `NULL`; node addresses (aligned, low bit 0)
and `NULL` are unchanged. -/
def coerceLockedEmpty : Ref → Ref
  | .heldEmpty => .free
  | r => r

/-- The per-thread context produced by `reciplock_acquire` and consumed by
the matching `reciplock_release`: the successor node (`succ`, with
`Ref.free` meaning "no known successor") and the end-of-segment marker
(`segment_end`). -/
structure Ctx where
  succ : Ref
  segEnd : Ref
deriving DecidableEq, Repr

/-- End of the spin loop in `reciplock_acquire`: given the putative
successor `s` decoded from the exchanged-out tail and the non-`NULL`
hand-off value `hv` observed in the own node's `next` field, compute the
final context:

    if ( succ == segment_end ) { succ = NULL; segment_end = LOCKED_EMPTY; }
-/
def resolve (s hv : Ref) : Ctx :=
  if s = hv then ⟨.free, .heldEmpty⟩ else ⟨s, hv⟩

/-- Program counter of one thread in the interleaved execution of
`reciplock_acquire` / `reciplock_release`.  Each constructor sits between
two consecutive atomic accesses of the C code. -/
inductive PC where
  /-- not inside the lock code -/
  | idle
  /-- acquire: own `next` has been reset to `NULL`; the
  `atomic_exchange(&lock->tail, &tls_wait_node)` is the next action -/
  | aXchg
  /-- acquire: contended path, spinning on the own node's `next`;
  `s` is the putative successor `(tail_prev & ~1)` -/
  | aSpin (s : Ref)
  /-- acquire has returned with context `c`; the thread is in its
  critical section -/
  | inCS (c : Ctx)
  /-- release, no successor: the fast-path load saw `tail == segment_end`;
  the `atomic_compare_exchange_strong(&lock->tail, &v, NULL)` is next -/
  | rCAS (segEnd : Ref)
  /-- release, slow path: the `atomic_exchange(&lock->tail, LOCKED_EMPTY)`
  is the next action -/
  | rXchg (segEnd : Ref)
  /-- release, slow path: the exchange returned `w`; the store
  `atomic_store(&w->next, segment_end)` is the next action -/
  | rStore (w : Ref) (segEnd : Ref)
deriving DecidableEq, Repr

/-- Global state of one `reciplock_t` together with every thread's wait
node and program counter.  `tail` is the lock's arrival word, `next t`
is the `next` field of thread `t`'s `tls_wait_node`. -/
structure GState where
  tail : Ref
  next : Nat → Ref
  pc : Nat → PC

/-- State after `reciplock_init`: `tail = NULL`, no thread is in the lock
code, all `next` fields are `NULL`. -/
def init : GState := ⟨.free, fun _ => .free, fun _ => .idle⟩

/-- One atomic step of thread `t`.  Each case performs exactly one atomic
access of the C code of `reciplock_acquire` / `reciplock_release`:

* `idle`: begin an acquire; `atomic_store(&tls_wait_node.next, NULL)`.
* `aXchg`: `tail_prev = atomic_exchange(&lock->tail, &tls_wait_node)`;
  if `tail_prev == NULL` the acquire returns at once with
  `succ = NULL, segment_end = &tls_wait_node`; otherwise the thread
  records the putative successor `tail_prev & ~1` and spins.
* `aSpin s`: one load of the own `next`; if still `NULL` nothing changes,
  otherwise the spin ends and the context is resolved by `resolve`.
* `inCS c`: begin the matching release.  With a successor, the single
  store `atomic_store(&succ->next, segment_end)` finishes the release.
  Without one, the fast-path load of `tail` decides between the CAS and
  the slow path.  (A `heldEmpty` successor would dereference the
  sentinel in C; it is unreachable, and the model is stuck there.)
* `rCAS e`: the CAS; on success `tail` becomes `NULL` and the release
  returns, on failure the slow path follows.
* `rXchg e`: `w = atomic_exchange(&lock->tail, LOCKED_EMPTY)`.
* `rStore w e`: `atomic_store(&w->next, segment_end)`; if `w` is not a
  real node the C code's assertions fail, and the model is stuck. -/
def step (g : GState) (t : Nat) : GState :=
  match g.pc t with
  | .idle =>
      { g with next := Function.update g.next t .free,
               pc := Function.update g.pc t .aXchg }
  | .aXchg =>
      if g.tail = .free then
        { g with tail := .node t,
                 pc := Function.update g.pc t (.inCS ⟨.free, .node t⟩) }
      else
        { g with tail := .node t,
                 pc := Function.update g.pc t (.aSpin (coerceLockedEmpty g.tail)) }
  | .aSpin s =>
      if g.next t = .free then g
      else { g with pc := Function.update g.pc t (.inCS (resolve s (g.next t))) }
  | .inCS c =>
      match c.succ with
      | .node u =>
          { g with next := Function.update g.next u c.segEnd,
                   pc := Function.update g.pc t .idle }
      | .free =>
          if g.tail = c.segEnd then
            { g with pc := Function.update g.pc t (.rCAS c.segEnd) }
          else
            { g with pc := Function.update g.pc t (.rXchg c.segEnd) }
      | .heldEmpty => g
  | .rCAS e =>
      if g.tail = e then
        { g with tail := .free, pc := Function.update g.pc t .idle }
      else
        { g with pc := Function.update g.pc t (.rXchg e) }
  | .rXchg e =>
      { g with tail := .heldEmpty,
               pc := Function.update g.pc t (.rStore g.tail e) }
  | .rStore w e =>
      match w with
      | .node u =>
          { g with next := Function.update g.next u e,
                   pc := Function.update g.pc t .idle }
      | _ => g

/-- Run a finite interleaving: the list gives which thread performs each
successive atomic step. -/
def run (g : GState) : List Nat → GState
  | [] => g
  | t :: tr => run (step g t) tr

theorem run_append (g : GState) (l₁ l₂ : List Nat) :
    run g (l₁ ++ l₂) = run (run g l₁) l₂ := by
  induction l₁ generalizing g with
  | nil => rfl
  | cons t tr ih => simp [run, ih]

/-! ## The global invariant

The safety argument is a single inductive invariant over `GState`.  A
thread "holds" the lock when it is in its critical section or inside
`reciplock_release`, or when it is still spinning but its `next` field
has already received the hand-off value.  Waiting threads form chains
linked through the putative-successor values recorded while spinning,
and the invariant relates the chain bottoms to the segment-end markers
carried in the contexts. -/

/-- Thread `t` holds the lock: it is between the return of
`reciplock_acquire` and the completion of `reciplock_release`, or it is
a spinner whose `next` field already carries the hand-off value (the
store in release that grants it the lock has happened). -/
def Held (g : GState) (t : Nat) : Prop :=
  match g.pc t with
  | .inCS _ => True
  | .rCAS _ => True
  | .rXchg _ => True
  | .rStore _ _ => True
  | .aSpin _ => g.next t ≠ .free
  | _ => False

/-- `Chain g l top bot`: starting from the reference `top`, the threads
in `l` form a chain of unwoken spinners: each one's recorded putative
successor refers to the next list entry's node, and the last one's
putative successor is `bot`.  An empty chain means `top = bot`. -/
inductive Chain (g : GState) : List Nat → Ref → Ref → Prop
  | nil (b : Ref) : Chain g [] b b
  | cons (t : Nat) (l : List Nat) (s b : Ref)
      (hpc : g.pc t = .aSpin s) (hnext : g.next t = .free)
      (hmem : t ∉ l) (htl : Chain g l s b) : Chain g (t :: l) (.node t) b

/-- Relation between a chain bottom `B` and the segment-end marker `e`
that will be handed down that chain: either the segment sits on a
(possibly already re-freed) `LOCKED_EMPTY` base and the marker is the
sentinel, or the bottom is the very node used as the marker. -/
def SegRel (B e : Ref) : Prop :=
  (e = .heldEmpty ∧ (B = .free ∨ B = .heldEmpty)) ∨ (B = e ∧ ∃ o, e = .node o)

/-- The live arrival chain hanging from `tail` is well formed, drains to
a `LOCKED_EMPTY`-style bottom, and avoids the threads in `avoid`. -/
def LiveOKD (g : GState) (avoid : List Nat) : Prop :=
  ∃ L B, Chain g L g.tail B ∧ (B = .free ∨ B = .heldEmpty) ∧ ∀ x ∈ L, x ∉ avoid

/-- Well-formedness of the context `c` held by the current owner `h`:

* no successor: the segment end is the sentinel or `h`'s own node, and
  the live chain's bottom matches it;
* successor `u`: the remaining detached segment is a chain from `u`
  whose bottom matches the segment end, the segment end is the sentinel
  or the node of a thread outside the chain (and not `h` itself), and
  the live chain avoids the detached one;
* a `heldEmpty` successor never occurs. -/
def CtxProps (g : GState) (h : Nat) (c : Ctx) : Prop :=
  match c.succ with
  | .free => (c.segEnd = .heldEmpty ∨ c.segEnd = .node h) ∧
      ∃ L B, Chain g L g.tail B ∧ SegRel B c.segEnd
  | .node u => ∃ D B, Chain g (u :: D) (.node u) B ∧ SegRel B c.segEnd ∧
      (c.segEnd = .heldEmpty ∨ ∃ o, c.segEnd = .node o ∧ o ∉ u :: D ∧ o ≠ h) ∧
      LiveOKD g (u :: D)
  | .heldEmpty => False

/-- What the unique holder `h` guarantees, by program counter:
in the critical section or at the release CAS it owns a well-formed
context; at the slow-path exchange the tail is some (other) spinner's
node different from its segment end; between the exchange and the
hand-off store, the detached segment hangs from the store target; a
woken spinner owns the context its spin is about to resolve to. -/
def OwnerOK (g : GState) (h : Nat) : Prop :=
  match g.pc h with
  | .inCS c => CtxProps g h c
  | .rCAS e => CtxProps g h ⟨.free, e⟩
  | .rXchg e => CtxProps g h ⟨.free, e⟩ ∧ ∃ x, g.tail = .node x ∧ Ref.node x ≠ e
  | .rStore w e => ∃ x D B, w = .node x ∧ Chain g (x :: D) w B ∧ SegRel B e ∧
      (e = .heldEmpty ∨ e = .node h) ∧ LiveOKD g (x :: D)
  | .aSpin s => g.next h ≠ .free ∧ CtxProps g h (resolve s (g.next h))
  | _ => False

/-- The inductive invariant: a thread about to publish its node has a
reset `next` field; at most one thread holds the lock; and either the
lock is free and nobody holds it, or the tail is not free and the
unique holder satisfies `OwnerOK`. -/
def Inv (g : GState) : Prop :=
  (∀ t, g.pc t = .aXchg → g.next t = .free) ∧
  (∀ t u, Held g t → Held g u → t = u) ∧
  ((g.tail = .free ∧ ∀ t, ¬ Held g t) ∨
   (g.tail ≠ .free ∧ ∃ h, Held g h ∧ OwnerOK g h))

theorem inv_init : Inv init := by
  refine ⟨fun t h => by simp [init] at h, fun t u ht => ?_, Or.inl ⟨rfl, fun t => ?_⟩⟩
  all_goals simp [Held, init] at *

/-! ### Chain lemmas -/

theorem Chain.mem_spin {g : GState} {l : List Nat} {top bot : Ref}
    (hc : Chain g l top bot) {x : Nat} (hx : x ∈ l) :
    (∃ s, g.pc x = .aSpin s) ∧ g.next x = .free := by
  induction hc with
  | nil => cases hx
  | cons t l s b hpc hnext hmem htl ih =>
      rcases List.mem_cons.mp hx with rfl | hx
      · exact ⟨⟨s, hpc⟩, hnext⟩
      · exact ih hx

theorem Chain.not_mem_of_pc {g : GState} {l : List Nat} {top bot : Ref}
    (hc : Chain g l top bot) {x : Nat} (hx : ∀ s, g.pc x ≠ .aSpin s) : x ∉ l := by
  intro hmem
  obtain ⟨⟨s, hs⟩, _⟩ := hc.mem_spin hmem
  exact hx s hs

theorem Chain.not_mem_of_next {g : GState} {l : List Nat} {top bot : Ref}
    (hc : Chain g l top bot) {x : Nat} (hx : g.next x ≠ .free) : x ∉ l := by
  intro hmem
  exact hx (hc.mem_spin hmem).2

theorem Chain.frame_all {g g' : GState} {l : List Nat} {top bot : Ref}
    (hc : Chain g l top bot)
    (hpc : ∀ x ∈ l, g'.pc x = g.pc x)
    (hnext : ∀ x ∈ l, g'.next x = g.next x) :
    Chain g' l top bot := by
  induction hc with
  | nil => exact .nil _
  | cons t l s b hp hn hm htl ih =>
      exact .cons t l s b ((hpc t (by simp)).trans hp) ((hnext t (by simp)).trans hn) hm
        (ih (fun x hx => hpc x (by simp [hx])) (fun x hx => hnext x (by simp [hx])))

theorem Chain.eq_nil_of_free {g : GState} {l : List Nat} {bot : Ref}
    (hc : Chain g l .free bot) : l = [] ∧ bot = .free := by
  cases hc with
  | nil => exact ⟨rfl, rfl⟩

theorem Chain.eq_nil_of_heldEmpty {g : GState} {l : List Nat} {bot : Ref}
    (hc : Chain g l .heldEmpty bot) : l = [] ∧ bot = .heldEmpty := by
  cases hc with
  | nil => exact ⟨rfl, rfl⟩

/-- A thread `t` that is not an unwoken spinner is in no chain; a state
change that only touches `t` therefore preserves every chain. -/
theorem Chain.frame_avoid {g g' : GState} {l : List Nat} {top bot : Ref} {t : Nat}
    (hc : Chain g l top bot)
    (hother : ∀ x, x ≠ t → g'.pc x = g.pc x ∧ g'.next x = g.next x)
    (ht : g.next t ≠ .free ∨ ∀ s, g.pc t ≠ .aSpin s) :
    Chain g' l top bot := by
  have hnt : t ∉ l := by
    cases ht with
    | inl hx => exact hc.not_mem_of_next hx
    | inr hx => exact hc.not_mem_of_pc hx
  exact hc.frame_all (fun x hx => (hother x (fun he => hnt (he ▸ hx))).1)
    (fun x hx => (hother x (fun he => hnt (he ▸ hx))).2)

theorem LiveOKD.frame_live {g g' : GState} {avoid : List Nat} {t : Nat}
    (hl : LiveOKD g avoid) (htail : g'.tail = g.tail)
    (hother : ∀ x, x ≠ t → g'.pc x = g.pc x ∧ g'.next x = g.next x)
    (ht : g.next t ≠ .free ∨ ∀ s, g.pc t ≠ .aSpin s) :
    LiveOKD g' avoid := by
  obtain ⟨L, B, hc, hB, hav⟩ := hl
  exact ⟨L, B, htail ▸ hc.frame_avoid hother ht, hB, hav⟩

theorem CtxProps.frame_ctx {g g' : GState} {h : Nat} {c : Ctx} {t : Nat}
    (hc : CtxProps g h c) (htail : g'.tail = g.tail)
    (hother : ∀ x, x ≠ t → g'.pc x = g.pc x ∧ g'.next x = g.next x)
    (ht : g.next t ≠ .free ∨ ∀ s, g.pc t ≠ .aSpin s) :
    CtxProps g' h c := by
  obtain ⟨s, e⟩ := c
  cases s with
  | free =>
      obtain ⟨hE, L, B, hch, hseg⟩ := hc
      exact ⟨hE, L, B, htail ▸ hch.frame_avoid hother ht, hseg⟩
  | heldEmpty => exact hc.elim
  | node u =>
      obtain ⟨D, B, hch, hseg, hE, hl⟩ := hc
      exact ⟨D, B, hch.frame_avoid hother ht, hseg, hE, hl.frame_live htail hother ht⟩

theorem OwnerOK.frame_owner {g g' : GState} {h t : Nat}
    (ho : OwnerOK g h) (htail : g'.tail = g.tail)
    (hother : ∀ x, x ≠ t → g'.pc x = g.pc x ∧ g'.next x = g.next x)
    (ht : g.next t ≠ .free ∨ ∀ s, g.pc t ≠ .aSpin s) (hht : h ≠ t) :
    OwnerOK g' h := by
  have hpch := (hother h hht).1
  have hnxh := (hother h hht).2
  unfold OwnerOK at ho ⊢
  rw [hpch, hnxh]
  cases hp : g.pc h with
  | inCS c => rw [hp] at ho; exact ho.frame_ctx htail hother ht
  | rCAS e => rw [hp] at ho; exact ho.frame_ctx htail hother ht
  | rXchg e =>
      rw [hp] at ho
      obtain ⟨hcp, x, hx, hne⟩ := ho
      exact ⟨hcp.frame_ctx htail hother ht, x, htail ▸ hx, hne⟩
  | rStore w e =>
      rw [hp] at ho
      obtain ⟨x, D, B, rfl, hch, hseg, hE, hl⟩ := ho
      exact ⟨x, D, B, rfl, hch.frame_avoid hother ht, hseg, hE, hl.frame_live htail hother ht⟩
  | aSpin s =>
      rw [hp] at ho
      exact ⟨ho.1, ho.2.frame_ctx htail hother ht⟩
  | idle => rw [hp] at ho; exact ho
  | aXchg => rw [hp] at ho; exact ho

/-! ### Push lemmas: a new arrival extends the live chain

When a thread `t` at `aXchg` performs its exchange on a non-free tail,
the live chain grows by `t` at the top; its bottom marker is unchanged
(or becomes `free` when the old tail was the sentinel). -/

theorem chain_push {g g' : GState} {t : Nat} {L : List Nat} {B e : Ref}
    (hc : Chain g L g.tail B) (hseg : SegRel B e)
    (hpct : g.pc t = .aXchg)
    (htail' : g'.tail = .node t)
    (hpct' : g'.pc t = .aSpin (coerceLockedEmpty g.tail))
    (hnx' : g'.next t = .free)
    (hother : ∀ x, x ≠ t → g'.pc x = g.pc x ∧ g'.next x = g.next x)
    (hne : g.tail ≠ .free) :
    ∃ L' B', Chain g' L' g'.tail B' ∧ SegRel B' e ∧ ∀ x ∈ L', x = t ∨ x ∈ L := by
  cases htl : g.tail with
  | free => exact absurd htl hne
  | heldEmpty =>
      rw [htl] at hc
      obtain ⟨rfl, rfl⟩ := hc.eq_nil_of_heldEmpty
      have he : e = .heldEmpty := by
        rcases hseg with ⟨he, _⟩ | ⟨hBe, o, ho⟩
        · exact he
        · rw [← hBe] at ho; cases ho
      rw [htl] at hpct'
      refine ⟨[t], .free, ?_, ?_, ?_⟩
      · rw [htail']
        exact .cons t [] .free .free hpct' hnx' (by simp) (.nil _)
      · exact Or.inl ⟨he, Or.inl rfl⟩
      · intro x hx; simp at hx; exact Or.inl hx
  | node y =>
      rw [htl] at hc hpct'
      have htL : t ∉ L := hc.not_mem_of_pc (fun s hs => by rw [hpct] at hs; cases hs)
      refine ⟨t :: L, B, ?_, hseg, ?_⟩
      · rw [htail']
        exact .cons t L (.node y) B hpct' hnx' htL
          (hc.frame_avoid hother (Or.inr (fun s hs => by rw [hpct] at hs; cases hs)))
      · intro x hx
        rcases List.mem_cons.mp hx with rfl | hx
        · exact Or.inl rfl
        · exact Or.inr hx

theorem LiveOKD.push_live {g g' : GState} {avoid : List Nat} {t : Nat}
    (hl : LiveOKD g avoid) (htav : t ∉ avoid)
    (hpct : g.pc t = .aXchg)
    (htail' : g'.tail = .node t)
    (hpct' : g'.pc t = .aSpin (coerceLockedEmpty g.tail))
    (hnx' : g'.next t = .free)
    (hother : ∀ x, x ≠ t → g'.pc x = g.pc x ∧ g'.next x = g.next x)
    (hne : g.tail ≠ .free) :
    LiveOKD g' avoid := by
  obtain ⟨L, B, hc, hB, hav⟩ := hl
  have hseg : SegRel B .heldEmpty := Or.inl ⟨rfl, hB⟩
  obtain ⟨L', B', hc', hseg', hmem'⟩ :=
    chain_push hc hseg hpct htail' hpct' hnx' hother hne
  have hB' : B' = .free ∨ B' = .heldEmpty := by
    rcases hseg' with ⟨_, hB'⟩ | ⟨hBe, o, ho⟩
    · exact hB'
    · cases ho
  refine ⟨L', B', hc', hB', fun x hx => ?_⟩
  rcases hmem' x hx with rfl | hx'
  · exact htav
  · exact hav x hx'

theorem CtxProps.push_ctx {g g' : GState} {h t : Nat} {c : Ctx}
    (hc : CtxProps g h c) (hpct : g.pc t = .aXchg)
    (htail' : g'.tail = .node t)
    (hpct' : g'.pc t = .aSpin (coerceLockedEmpty g.tail))
    (hnx' : g'.next t = .free)
    (hother : ∀ x, x ≠ t → g'.pc x = g.pc x ∧ g'.next x = g.next x)
    (hne : g.tail ≠ .free) :
    CtxProps g' h c := by
  obtain ⟨s, e⟩ := c
  cases s with
  | free =>
      obtain ⟨hE, L, B, hch, hseg⟩ := hc
      obtain ⟨L', B', hch', hseg', _⟩ :=
        chain_push hch hseg hpct htail' hpct' hnx' hother hne
      exact ⟨hE, L', B', hch', hseg'⟩
  | heldEmpty => exact hc.elim
  | node u =>
      obtain ⟨D, B, hch, hseg, hE, hl⟩ := hc
      have hxt : ∀ s, g.pc t ≠ .aSpin s := fun s hs => by rw [hpct] at hs; cases hs
      have htav : t ∉ u :: D := hch.not_mem_of_pc hxt
      exact ⟨D, B, hch.frame_avoid hother (Or.inr hxt), hseg, hE,
        hl.push_live htav hpct htail' hpct' hnx' hother hne⟩

theorem OwnerOK.push_owner {g g' : GState} {h t : Nat}
    (ho : OwnerOK g h) (hpct : g.pc t = .aXchg)
    (htail' : g'.tail = .node t)
    (hpct' : g'.pc t = .aSpin (coerceLockedEmpty g.tail))
    (hnx' : g'.next t = .free)
    (hother : ∀ x, x ≠ t → g'.pc x = g.pc x ∧ g'.next x = g.next x)
    (hne : g.tail ≠ .free) (hht : h ≠ t) :
    OwnerOK g' h := by
  have hxt : ∀ s, g.pc t ≠ .aSpin s := fun s hs => by rw [hpct] at hs; cases hs
  have hpch := (hother h hht).1
  have hnxh := (hother h hht).2
  unfold OwnerOK at ho ⊢
  rw [hpch, hnxh]
  cases hp : g.pc h with
  | inCS c =>
      rw [hp] at ho; exact ho.push_ctx hpct htail' hpct' hnx' hother hne
  | rCAS e =>
      rw [hp] at ho; exact ho.push_ctx hpct htail' hpct' hnx' hother hne
  | rXchg e =>
      rw [hp] at ho
      obtain ⟨hcp, x, hx, hne'⟩ := ho
      refine ⟨hcp.push_ctx hpct htail' hpct' hnx' hother hne, t, htail', ?_⟩
      obtain ⟨hE, _⟩ := hcp
      rcases hE with rfl | rfl
      · intro hc; cases hc
      · intro hc; cases hc; exact hht rfl
  | rStore w e =>
      rw [hp] at ho
      obtain ⟨x, D, B, rfl, hch, hseg, hE, hl⟩ := ho
      have htav : t ∉ x :: D := hch.not_mem_of_pc hxt
      exact ⟨x, D, B, rfl, hch.frame_avoid hother (Or.inr hxt), hseg, hE,
        hl.push_live htav hpct htail' hpct' hnx' hother hne⟩
  | aSpin s =>
      rw [hp] at ho
      exact ⟨ho.1, ho.2.push_ctx hpct htail' hpct' hnx' hother hne⟩
  | idle => rw [hp] at ho; exact ho
  | aXchg => rw [hp] at ho; exact ho

/-! ### Preservation of the invariant, case by case -/

theorem held_congr {g g' : GState} {x : Nat} (hpc : g'.pc x = g.pc x)
    (hnx : g'.next x = g.next x) : Held g' x ↔ Held g x := by
  cases hp : g.pc x <;> simp [Held, hpc, hnx, hp]

theorem inv_step_idle {g : GState} {t : Nat} (hI : Inv g) (hpc : g.pc t = .idle) :
    Inv (step g t) := by
  obtain ⟨hreset, huniq, hbr⟩ := hI
  have hstep : step g t = { g with next := Function.update g.next t .free, pc := Function.update g.pc t .aXchg } := by simp [step, hpc]
  rw [hstep]
  set g' : GState := { g with next := Function.update g.next t .free, pc := Function.update g.pc t .aXchg } with hg'
  have hother : ∀ x, x ≠ t → g'.pc x = g.pc x ∧ g'.next x = g.next x :=
    fun x hx => ⟨Function.update_noteq hx _ _, Function.update_noteq hx _ _⟩
  have hheld : ∀ x, Held g' x → Held g x ∧ x ≠ t := by
    intro x hx
    by_cases hxt : x = t
    · subst hxt
      simp [Held, hg', Function.update_same] at hx
    · exact ⟨(held_congr (hother x hxt).1 (hother x hxt).2).mp hx, hxt⟩
  refine ⟨?_, ?_, ?_⟩
  · intro x hx
    by_cases hxt : x = t
    · subst hxt
      show Function.update g.next x .free x = .free
      exact Function.update_same _ _ _
    · rw [(hother x hxt).1] at hx
      rw [(hother x hxt).2]
      exact hreset x hx
  · intro x y hx hy
    exact huniq x y (hheld x hx).1 (hheld y hy).1
  · rcases hbr with ⟨htf, hnone⟩ | ⟨htf, h, hH, hO⟩
    · exact Or.inl ⟨htf, fun x hx => (hnone x) (hheld x hx).1⟩
    · have hht : h ≠ t := by
        intro he; rw [he] at hH; simp [Held, hpc] at hH
      refine Or.inr ⟨htf, h, (held_congr (hother h hht).1 (hother h hht).2).mpr hH, ?_⟩
      exact hO.frame_owner rfl hother (Or.inr fun s hs => by rw [hpc] at hs; cases hs) hht

theorem inv_step_aXchg {g : GState} {t : Nat} (hI : Inv g) (hpc : g.pc t = .aXchg) :
    Inv (step g t) := by
  obtain ⟨hreset, huniq, hbr⟩ := hI
  rcases hbr with ⟨htf, hnone⟩ | ⟨htf, h, hH, hO⟩
  · -- lock free: fast path, the thread becomes the holder at once
    have hstep : step g t = { g with tail := .node t, pc := Function.update g.pc t (.inCS ⟨.free, .node t⟩) } := by
      simp [step, hpc, htf]
    rw [hstep]
    set g' : GState := { g with tail := .node t, pc := Function.update g.pc t (.inCS ⟨.free, .node t⟩) } with hg'
    have hother : ∀ x, x ≠ t → g'.pc x = g.pc x ∧ g'.next x = g.next x :=
      fun x hx => ⟨Function.update_noteq hx _ _, rfl⟩
    have hheld : ∀ x, Held g' x → x = t := by
      intro x hx
      by_cases hxt : x = t
      · exact hxt
      · exact absurd ((held_congr (hother x hxt).1 (hother x hxt).2).mp hx) (hnone x)
    refine ⟨?_, ?_, Or.inr ⟨by simp [hg'], t, ?_, ?_⟩⟩
    · intro x hx
      by_cases hxt : x = t
      · subst hxt
        simp [hg', Function.update_same] at hx
      · rw [(hother x hxt).1] at hx
        exact hreset x hx
    · intro x y hx hy; rw [hheld x hx, hheld y hy]
    · simp [Held, hg', Function.update_same]
    · show OwnerOK g' t
      unfold OwnerOK
      have : g'.pc t = .inCS ⟨.free, .node t⟩ := Function.update_same _ _ _
      rw [this]
      exact ⟨Or.inr rfl, [], .node t, Chain.nil _, Or.inr ⟨rfl, t, rfl⟩⟩
  · -- lock held: the thread joins the live chain as new top
    have hstep : step g t = { g with tail := .node t, pc := Function.update g.pc t (.aSpin (coerceLockedEmpty g.tail)) } := by
      simp [step, hpc, htf]
    rw [hstep]
    set g' : GState := { g with tail := .node t, pc := Function.update g.pc t (.aSpin (coerceLockedEmpty g.tail)) } with hg'
    have hother : ∀ x, x ≠ t → g'.pc x = g.pc x ∧ g'.next x = g.next x :=
      fun x hx => ⟨Function.update_noteq hx _ _, rfl⟩
    have hht : h ≠ t := by
      intro he; rw [he] at hH; simp [Held, hpc] at hH
    have hnt : g.next t = .free := hreset t hpc
    have hheld : ∀ x, Held g' x → Held g x ∧ x ≠ t := by
      intro x hx
      by_cases hxt : x = t
      · subst hxt
        simp [Held, hg', Function.update_same] at hx
        exact absurd hnt hx
      · exact ⟨(held_congr (hother x hxt).1 (hother x hxt).2).mp hx, hxt⟩
    refine ⟨?_, ?_, Or.inr ⟨by simp [hg'], h,
      (held_congr (hother h hht).1 (hother h hht).2).mpr hH, ?_⟩⟩
    · intro x hx
      by_cases hxt : x = t
      · subst hxt
        simp [hg', Function.update_same] at hx
      · rw [(hother x hxt).1] at hx
        exact hreset x hx
    · intro x y hx hy
      exact huniq x y (hheld x hx).1 (hheld y hy).1
    · exact hO.push_owner hpc rfl (Function.update_same _ _ _) hnt hother htf hht

theorem inv_step_aSpin_quiet {g : GState} {t : Nat} {s : Ref} (hI : Inv g)
    (hpc : g.pc t = .aSpin s) (hnx : g.next t = .free) : Inv (step g t) := by
  have hstep : step g t = g := by simp [step, hpc, hnx]
  rw [hstep]; exact hI

theorem inv_step_aSpin_wake {g : GState} {t : Nat} {s : Ref} (hI : Inv g)
    (hpc : g.pc t = .aSpin s) (hnx : g.next t ≠ .free) : Inv (step g t) := by
  obtain ⟨hreset, huniq, hbr⟩ := hI
  have hHt : Held g t := by simp [Held, hpc]; exact hnx
  rcases hbr with ⟨htf, hnone⟩ | ⟨htf, h, hH, hO⟩
  · exact absurd hHt (hnone t)
  rcases huniq t h hHt hH with rfl
  have hstep : step g t = { g with pc := Function.update g.pc t (.inCS (resolve s (g.next t))) } := by
    simp [step, hpc, hnx]
  rw [hstep]
  set g' : GState := { g with pc := Function.update g.pc t (.inCS (resolve s (g.next t))) } with hg'
  have hother : ∀ x, x ≠ t → g'.pc x = g.pc x ∧ g'.next x = g.next x :=
    fun x hx => ⟨Function.update_noteq hx _ _, rfl⟩
  have hheld : ∀ x, Held g' x → x = t := by
    intro x hx
    by_cases hxt : x = t
    · exact hxt
    · exact huniq x t ((held_congr (hother x hxt).1 (hother x hxt).2).mp hx) hHt
  have hOx : CtxProps g t (resolve s (g.next t)) := by
    unfold OwnerOK at hO; rw [hpc] at hO; exact hO.2
  refine ⟨?_, ?_, Or.inr ⟨htf, t, ?_, ?_⟩⟩
  · intro x hx
    by_cases hxt : x = t
    · subst hxt
      simp [hg', Function.update_same] at hx
    · rw [(hother x hxt).1] at hx
      exact hreset x hx
  · intro x y hx hy; rw [hheld x hx, hheld y hy]
  · simp [Held, hg', Function.update_same]
  · show OwnerOK g' t
    unfold OwnerOK
    rw [show g'.pc t = .inCS (resolve s (g.next t)) from Function.update_same _ _ _]
    exact hOx.frame_ctx rfl hother (Or.inl hnx)

/-- At the bottom of a detached chain the spin resolution always
collapses to "no successor, segment end `LOCKED_EMPTY`". -/
theorem SegRel.resolve_eq {B e : Ref} (h : SegRel B e) :
    resolve B e = ⟨.free, .heldEmpty⟩ := by
  rcases h with ⟨rfl, hB⟩ | ⟨rfl, o, rfl⟩
  · rcases hB with rfl | rfl <;> simp [resolve]
  · simp [resolve]

/-- Completing a hand-off: thread `t` (not a spinner) writes the
segment-end marker `e` into the `next` field of the detached chain's
head `x`.  Afterwards `x` is a woken spinner whose pending context
resolution is well formed. -/
theorem wake_target {g g' : GState} {t x : Nat} {D : List Nat} {B e : Ref}
    (hch : Chain g (x :: D) (.node x) B) (hseg : SegRel B e)
    (hEx : e = .heldEmpty ∨ ∃ o, e = .node o ∧ o ∉ x :: D)
    (hl : LiveOKD g (x :: D))
    (htail : g'.tail = g.tail)
    (hpc' : ∀ y, y ≠ t → g'.pc y = g.pc y)
    (hnx' : ∀ y, y ≠ x → g'.next y = g.next y)
    (hnxx : g'.next x = e)
    (htpc : ∀ s, g.pc t ≠ .aSpin s) :
    OwnerOK g' x := by
  cases hch with
  | cons _ _ s b hpcx hnxx0 hmem htl =>
    have hxt : x ≠ t := fun he => htpc s (he ▸ hpcx)
    have hpcx' : g'.pc x = .aSpin s := (hpc' x hxt).trans hpcx
    have hene : e ≠ .free := by
      rcases hEx with rfl | ⟨o, rfl, _⟩ <;> simp
    have hframe : ∀ {l : List Nat} {top bot : Ref}, Chain g l top bot →
        x ∉ l → t ∉ l → Chain g' l top bot := by
      intro l top bot hc hxl htl2
      exact hc.frame_all (fun y hy => hpc' y (fun he => htl2 (he ▸ hy)))
        (fun y hy => hnx' y (fun he => hxl (he ▸ hy)))
    obtain ⟨L, BL, hcl, hBL, hav⟩ := hl
    have hcl' : Chain g' L g'.tail BL := by
      rw [htail]
      exact hframe hcl (fun hm => hav x hm (List.mem_cons_self _ _))
        (hcl.not_mem_of_pc htpc)
    unfold OwnerOK
    rw [hpcx', hnxx]
    refine ⟨hene, ?_⟩
    cases D with
    | nil =>
        cases htl
        rw [hseg.resolve_eq]
        exact ⟨Or.inl rfl, L, BL, hcl', Or.inl ⟨rfl, hBL⟩⟩
    | cons v D' =>
        cases htl with
        | cons _ _ sv bv hpcv hnxv hmemv htlv =>
          have hsne : Ref.node v ≠ e := by
            rcases hEx with rfl | ⟨o, rfl, ho⟩
            · simp
            · intro hc
              cases hc
              exact ho (List.mem_cons_of_mem _ (List.mem_cons_self _ _))
          have hres : resolve (.node v) e = ⟨.node v, e⟩ := by
            simp [resolve, hsne]
          rw [hres]
          refine ⟨D', B, ?_, hseg, ?_, ?_⟩
          · exact hframe (Chain.cons v D' sv B hpcv hnxv hmemv htlv) hmem
              ((Chain.cons v D' sv B hpcv hnxv hmemv htlv).not_mem_of_pc htpc)
          · rcases hEx with rfl | ⟨o, rfl, ho⟩
            · exact Or.inl rfl
            · exact Or.inr ⟨o, rfl, fun hm => ho (List.mem_cons_of_mem _ hm),
                fun he => ho (he ▸ List.mem_cons_self _ _)⟩
          · exact ⟨L, BL, hcl', hBL,
              fun y hy hm => hav y hy (List.mem_cons_of_mem _ hm)⟩

/-- A release with a known successor `u` wakes exactly `u`. -/
theorem inv_step_handoff {g : GState} {t u : Nat} {e : Ref} (hI : Inv g)
    (hpc : g.pc t = .inCS ⟨.node u, e⟩) : Inv (step g t) := by
  obtain ⟨hreset, huniq, hbr⟩ := hI
  have hHt : Held g t := by simp [Held, hpc]
  rcases hbr with ⟨htf, hnone⟩ | ⟨htf, h, hH, hO⟩
  · exact absurd hHt (hnone t)
  rcases huniq t h hHt hH with rfl
  have hctx : CtxProps g t ⟨.node u, e⟩ := by
    unfold OwnerOK at hO; rw [hpc] at hO; exact hO
  obtain ⟨D, B, hch, hseg, hE, hl⟩ := hctx
  have htpc : ∀ s, g.pc t ≠ .aSpin s := fun s hs => by rw [hpc] at hs; cases hs
  obtain ⟨⟨su, hpcu⟩, hnxu⟩ := hch.mem_spin (List.mem_cons_self u D)
  have hut : u ≠ t := fun he => htpc su (he ▸ hpcu)
  have hene : e ≠ .free := by rcases hE with rfl | ⟨o, rfl, -, -⟩ <;> simp
  have hstep : step g t = { g with next := Function.update g.next u e, pc := Function.update g.pc t .idle } := by simp [step, hpc]
  rw [hstep]
  set g' : GState := { g with next := Function.update g.next u e, pc := Function.update g.pc t .idle } with hg'
  have hpc' : ∀ y, y ≠ t → g'.pc y = g.pc y := fun y hy => Function.update_noteq hy _ _
  have hnx' : ∀ y, y ≠ u → g'.next y = g.next y := fun y hy => Function.update_noteq hy _ _
  have hnxx : g'.next u = e := Function.update_same _ _ _
  have hEx : e = .heldEmpty ∨ ∃ o, e = .node o ∧ o ∉ u :: D := by
    rcases hE with rfl | ⟨o, rfl, ho, -⟩
    · exact Or.inl rfl
    · exact Or.inr ⟨o, rfl, ho⟩
  have hOx : OwnerOK g' u := wake_target hch hseg hEx hl rfl hpc' hnx' hnxx htpc
  have hHu : Held g' u := by
    have hpu : g'.pc u = .aSpin su := (hpc' u hut).trans hpcu
    unfold Held
    rw [hpu]
    show g'.next u ≠ .free
    rw [hnxx]
    exact hene
  have hheld : ∀ x, Held g' x → x = u := by
    intro x hx
    by_cases hxu : x = u
    · exact hxu
    by_cases hxt : x = t
    · subst hxt
      simp [Held, hg', Function.update_same] at hx
    · have hgx := (held_congr (hpc' x hxt) (hnx' x hxu)).mp hx
      exact absurd (huniq x t hgx hHt) hxt
  refine ⟨?_, ?_, Or.inr ⟨htf, u, hHu, hOx⟩⟩
  · intro x hx
    by_cases hxt : x = t
    · subst hxt; simp [hg', Function.update_same] at hx
    · rw [hpc' x hxt] at hx
      by_cases hxu : x = u
      · subst hxu; rw [hpcu] at hx; cases hx
      · rw [hnx' x hxu]; exact hreset x hx
  · intro x y hx hy; rw [hheld x hx, hheld y hy]

/-- When a no-successor context exists, a non-free tail different from
the segment end must be a real spinner node. -/
theorem live_top {g : GState} {t : Nat} {e : Ref}
    (hctx : CtxProps g t ⟨.free, e⟩) (htf : g.tail ≠ .free) (hte : g.tail ≠ e) :
    ∃ x, g.tail = .node x := by
  obtain ⟨hEs, L, B, hch, hseg⟩ := hctx
  cases htl2 : g.tail with
  | free => exact absurd htl2 htf
  | heldEmpty =>
      rw [htl2] at hch
      obtain ⟨-, hB⟩ := hch.eq_nil_of_heldEmpty
      subst hB
      rcases hseg with ⟨rfl, -⟩ | ⟨hBe, o, ho⟩
      · exact absurd htl2 hte
      · rw [← hBe] at ho; cases ho
  | node x => exact ⟨x, rfl⟩

/-- The first step of a no-successor release: the fast-path load of
`tail`, branching to the CAS or to the slow path. -/
theorem inv_step_check {g : GState} {t : Nat} {e : Ref} (hI : Inv g)
    (hpc : g.pc t = .inCS ⟨.free, e⟩) : Inv (step g t) := by
  obtain ⟨hreset, huniq, hbr⟩ := hI
  have hHt : Held g t := by simp [Held, hpc]
  rcases hbr with ⟨htf, hnone⟩ | ⟨htf, h, hH, hO⟩
  · exact absurd hHt (hnone t)
  rcases huniq t h hHt hH with rfl
  have hctx : CtxProps g t ⟨.free, e⟩ := by
    unfold OwnerOK at hO; rw [hpc] at hO; exact hO
  have htpc : ∀ s, g.pc t ≠ .aSpin s := fun s hs => by rw [hpc] at hs; cases hs
  by_cases hte : g.tail = e
  · have hstep : step g t = { g with pc := Function.update g.pc t (.rCAS e) } := by
      simp [step, hpc, hte]
    rw [hstep]
    set g' : GState := { g with pc := Function.update g.pc t (.rCAS e) } with hg'
    have hother : ∀ y, y ≠ t → g'.pc y = g.pc y ∧ g'.next y = g.next y :=
      fun y hy => ⟨Function.update_noteq hy _ _, rfl⟩
    have hheld : ∀ x, Held g' x → x = t := by
      intro x hx
      by_cases hxt : x = t
      · exact hxt
      · exact huniq x t ((held_congr (hother x hxt).1 (hother x hxt).2).mp hx) hHt
    refine ⟨?_, ?_, Or.inr ⟨htf, t, ?_, ?_⟩⟩
    · intro x hx
      by_cases hxt : x = t
      · subst hxt; simp [hg', Function.update_same] at hx
      · rw [(hother x hxt).1] at hx; exact hreset x hx
    · intro x y hx hy; rw [hheld x hx, hheld y hy]
    · simp [Held, hg', Function.update_same]
    · show OwnerOK g' t
      unfold OwnerOK
      rw [show g'.pc t = .rCAS e from Function.update_same _ _ _]
      exact hctx.frame_ctx rfl hother (Or.inr htpc)
  · have hstep : step g t = { g with pc := Function.update g.pc t (.rXchg e) } := by
      simp [step, hpc, hte]
    rw [hstep]
    set g' : GState := { g with pc := Function.update g.pc t (.rXchg e) } with hg'
    have hother : ∀ y, y ≠ t → g'.pc y = g.pc y ∧ g'.next y = g.next y :=
      fun y hy => ⟨Function.update_noteq hy _ _, rfl⟩
    have hheld : ∀ x, Held g' x → x = t := by
      intro x hx
      by_cases hxt : x = t
      · exact hxt
      · exact huniq x t ((held_congr (hother x hxt).1 (hother x hxt).2).mp hx) hHt
    obtain ⟨x, htx⟩ := live_top hctx htf hte
    refine ⟨?_, ?_, Or.inr ⟨htf, t, ?_, ?_⟩⟩
    · intro y hy
      by_cases hyt : y = t
      · subst hyt; simp [hg', Function.update_same] at hy
      · rw [(hother y hyt).1] at hy; exact hreset y hy
    · intro y z hy hz; rw [hheld y hy, hheld z hz]
    · simp [Held, hg', Function.update_same]
    · show OwnerOK g' t
      unfold OwnerOK
      rw [show g'.pc t = .rXchg e from Function.update_same _ _ _]
      exact ⟨hctx.frame_ctx rfl hother (Or.inr htpc), x, htx, htx ▸ hte⟩

/-- The release CAS: on success the lock becomes entirely free, on
failure the slow path follows. -/
theorem inv_step_rCAS {g : GState} {t : Nat} {e : Ref} (hI : Inv g)
    (hpc : g.pc t = .rCAS e) : Inv (step g t) := by
  obtain ⟨hreset, huniq, hbr⟩ := hI
  have hHt : Held g t := by simp [Held, hpc]
  rcases hbr with ⟨htf, hnone⟩ | ⟨htf, h, hH, hO⟩
  · exact absurd hHt (hnone t)
  rcases huniq t h hHt hH with rfl
  have hctx : CtxProps g t ⟨.free, e⟩ := by
    unfold OwnerOK at hO; rw [hpc] at hO; exact hO
  have htpc : ∀ s, g.pc t ≠ .aSpin s := fun s hs => by rw [hpc] at hs; cases hs
  by_cases hte : g.tail = e
  · have hstep : step g t = { g with tail := .free, pc := Function.update g.pc t .idle } := by
      simp [step, hpc, hte]
    rw [hstep]
    set g' : GState := { g with tail := .free, pc := Function.update g.pc t .idle } with hg'
    have hother : ∀ y, y ≠ t → g'.pc y = g.pc y ∧ g'.next y = g.next y :=
      fun y hy => ⟨Function.update_noteq hy _ _, rfl⟩
    have hnone' : ∀ x, ¬ Held g' x := by
      intro x hx
      by_cases hxt : x = t
      · subst hxt; simp [Held, hg', Function.update_same] at hx
      · exact hxt (huniq x t ((held_congr (hother x hxt).1 (hother x hxt).2).mp hx) hHt)
    refine ⟨?_, ?_, Or.inl ⟨rfl, hnone'⟩⟩
    · intro x hx
      by_cases hxt : x = t
      · subst hxt; simp [hg', Function.update_same] at hx
      · rw [(hother x hxt).1] at hx; exact hreset x hx
    · intro x y hx hy; exact absurd hx (hnone' x)
  · have hstep : step g t = { g with pc := Function.update g.pc t (.rXchg e) } := by
      simp [step, hpc, hte]
    rw [hstep]
    set g' : GState := { g with pc := Function.update g.pc t (.rXchg e) } with hg'
    have hother : ∀ y, y ≠ t → g'.pc y = g.pc y ∧ g'.next y = g.next y :=
      fun y hy => ⟨Function.update_noteq hy _ _, rfl⟩
    have hheld : ∀ x, Held g' x → x = t := by
      intro x hx
      by_cases hxt : x = t
      · exact hxt
      · exact huniq x t ((held_congr (hother x hxt).1 (hother x hxt).2).mp hx) hHt
    obtain ⟨x, htx⟩ := live_top hctx htf hte
    refine ⟨?_, ?_, Or.inr ⟨htf, t, ?_, ?_⟩⟩
    · intro y hy
      by_cases hyt : y = t
      · subst hyt; simp [hg', Function.update_same] at hy
      · rw [(hother y hyt).1] at hy; exact hreset y hy
    · intro y z hy hz; rw [hheld y hy, hheld z hz]
    · simp [Held, hg', Function.update_same]
    · show OwnerOK g' t
      unfold OwnerOK
      rw [show g'.pc t = .rXchg e from Function.update_same _ _ _]
      exact ⟨hctx.frame_ctx rfl hother (Or.inr htpc), x, htx, htx ▸ hte⟩

/-- The slow-path exchange detaches the live chain: its top becomes the
store target, the tail becomes the sentinel. -/
theorem inv_step_rXchg {g : GState} {t : Nat} {e : Ref} (hI : Inv g)
    (hpc : g.pc t = .rXchg e) : Inv (step g t) := by
  obtain ⟨hreset, huniq, hbr⟩ := hI
  have hHt : Held g t := by simp [Held, hpc]
  rcases hbr with ⟨htf, hnone⟩ | ⟨htf, h, hH, hO⟩
  · exact absurd hHt (hnone t)
  rcases huniq t h hHt hH with rfl
  have hO2 : CtxProps g t ⟨.free, e⟩ ∧ ∃ x, g.tail = .node x ∧ Ref.node x ≠ e := by
    unfold OwnerOK at hO; rw [hpc] at hO; exact hO
  obtain ⟨⟨hEs, L, B, hch, hseg⟩, x, htx, hne⟩ := hO2
  have htpc : ∀ s, g.pc t ≠ .aSpin s := fun s hs => by rw [hpc] at hs; cases hs
  rw [htx] at hch
  cases hch with
  | nil =>
      rcases hseg with ⟨rfl, hB⟩ | ⟨hBe, o, ho⟩
      · rcases hB with h1 | h1 <;> cases h1
      · exact absurd hBe hne
  | cons _ L2 sx b2 hpcx hnxx hmemx htlx =>
      have hstep : step g t = { g with tail := .heldEmpty, pc := Function.update g.pc t (.rStore (.node x) e) } := by
        simp [step, hpc, htx]
      rw [hstep]
      set g' : GState := { g with tail := .heldEmpty, pc := Function.update g.pc t (.rStore (.node x) e) } with hg'
      have hother : ∀ y, y ≠ t → g'.pc y = g.pc y ∧ g'.next y = g.next y :=
        fun y hy => ⟨Function.update_noteq hy _ _, rfl⟩
      have hheld : ∀ y, Held g' y → y = t := by
        intro y hy
        by_cases hyt : y = t
        · exact hyt
        · exact huniq y t ((held_congr (hother y hyt).1 (hother y hyt).2).mp hy) hHt
      refine ⟨?_, ?_, Or.inr ⟨by simp [hg'], t, ?_, ?_⟩⟩
      · intro y hy
        by_cases hyt : y = t
        · subst hyt; simp [hg', Function.update_same] at hy
        · rw [(hother y hyt).1] at hy; exact hreset y hy
      · intro y z hy hz; rw [hheld y hy, hheld z hz]
      · simp [Held, hg', Function.update_same]
      · show OwnerOK g' t
        unfold OwnerOK
        rw [show g'.pc t = .rStore (.node x) e from Function.update_same _ _ _]
        refine ⟨x, L2, B, rfl, ?_, hseg, hEs, ?_⟩
        · exact (Chain.cons x L2 sx B hpcx hnxx hmemx htlx).frame_avoid hother (Or.inr htpc)
        · exact ⟨[], .heldEmpty, Chain.nil _, Or.inr rfl, by simp⟩

/-- The slow-path store: the detached chain head is woken and becomes
the new holder. -/
theorem inv_step_rStore {g : GState} {t : Nat} {w e : Ref} (hI : Inv g)
    (hpc : g.pc t = .rStore w e) : Inv (step g t) := by
  obtain ⟨hreset, huniq, hbr⟩ := hI
  have hHt : Held g t := by simp [Held, hpc]
  rcases hbr with ⟨htf, hnone⟩ | ⟨htf, h, hH, hO⟩
  · exact absurd hHt (hnone t)
  rcases huniq t h hHt hH with rfl
  have hO2 : ∃ x D B, w = .node x ∧ Chain g (x :: D) w B ∧ SegRel B e ∧
      (e = .heldEmpty ∨ e = .node t) ∧ LiveOKD g (x :: D) := by
    unfold OwnerOK at hO; rw [hpc] at hO; exact hO
  obtain ⟨x, D, B, rfl, hch, hseg, hEs, hl⟩ := hO2
  have htpc : ∀ s, g.pc t ≠ .aSpin s := fun s hs => by rw [hpc] at hs; cases hs
  obtain ⟨⟨su, hpcu⟩, hnxu⟩ := hch.mem_spin (List.mem_cons_self x D)
  have hut : x ≠ t := fun he => htpc su (he ▸ hpcu)
  have hene : e ≠ .free := by rcases hEs with rfl | rfl <;> simp
  have hstep : step g t = { g with next := Function.update g.next x e, pc := Function.update g.pc t .idle } := by simp [step, hpc]
  rw [hstep]
  set g' : GState := { g with next := Function.update g.next x e, pc := Function.update g.pc t .idle } with hg'
  have hpc' : ∀ y, y ≠ t → g'.pc y = g.pc y := fun y hy => Function.update_noteq hy _ _
  have hnx' : ∀ y, y ≠ x → g'.next y = g.next y := fun y hy => Function.update_noteq hy _ _
  have hnxx : g'.next x = e := Function.update_same _ _ _
  have hEx : e = .heldEmpty ∨ ∃ o, e = .node o ∧ o ∉ x :: D := by
    rcases hEs with rfl | rfl
    · exact Or.inl rfl
    · exact Or.inr ⟨t, rfl, hch.not_mem_of_pc htpc⟩
  have hOx : OwnerOK g' x := wake_target hch hseg hEx hl rfl hpc' hnx' hnxx htpc
  have hHu : Held g' x := by
    have hpu : g'.pc x = .aSpin su := (hpc' x hut).trans hpcu
    unfold Held
    rw [hpu]
    show g'.next x ≠ .free
    rw [hnxx]
    exact hene
  have hheld : ∀ y, Held g' y → y = x := by
    intro y hy
    by_cases hyx : y = x
    · exact hyx
    by_cases hyt : y = t
    · subst hyt
      simp [Held, hg', Function.update_same] at hy
    · have hgy := (held_congr (hpc' y hyt) (hnx' y hyx)).mp hy
      exact absurd (huniq y t hgy hHt) hyt
  refine ⟨?_, ?_, Or.inr ⟨htf, x, hHu, hOx⟩⟩
  · intro y hy
    by_cases hyt : y = t
    · subst hyt; simp [hg', Function.update_same] at hy
    · rw [hpc' y hyt] at hy
      by_cases hyx : y = x
      · subst hyx; rw [hpcu] at hy; cases hy
      · rw [hnx' y hyx]; exact hreset y hy
  · intro y z hy hz; rw [hheld y hy, hheld z hz]

/-- Every step of every thread preserves the invariant. -/
theorem inv_step (g : GState) (t : Nat) (hI : Inv g) : Inv (step g t) := by
  cases hpc : g.pc t with
  | idle => exact inv_step_idle hI hpc
  | aXchg => exact inv_step_aXchg hI hpc
  | aSpin s =>
      by_cases hnx : g.next t = .free
      · exact inv_step_aSpin_quiet hI hpc hnx
      · exact inv_step_aSpin_wake hI hpc hnx
  | inCS c =>
      obtain ⟨cs, ce⟩ := c
      cases cs with
      | free => exact inv_step_check hI hpc
      | node u => exact inv_step_handoff hI hpc
      | heldEmpty =>
          obtain ⟨hreset, huniq, hbr⟩ := hI
          have hHt : Held g t := by simp [Held, hpc]
          rcases hbr with ⟨htf, hnone⟩ | ⟨htf, h, hH, hO⟩
          · exact absurd hHt (hnone t)
          rcases huniq t h hHt hH with rfl
          unfold OwnerOK at hO; rw [hpc] at hO
          have hFalse : False := hO
          exact hFalse.elim
  | rCAS e => exact inv_step_rCAS hI hpc
  | rXchg e => exact inv_step_rXchg hI hpc
  | rStore w e => exact inv_step_rStore hI hpc

theorem inv_run_from : ∀ (tr : List Nat) (g : GState), Inv g → Inv (run g tr)
  | [], _, hg => hg
  | t :: tr, g, hg => inv_run_from tr (step g t) (inv_step g t hg)

/-- Every state reachable from `init` by any interleaving satisfies the
invariant. -/
theorem inv_run (tr : List Nat) : Inv (run init tr) :=
  inv_run_from tr init inv_init

/-! ## The tilt backend surface (`examples/tilt/locks/reciplock.c`) and
the context-passing configuration of `reciplock.h` -/

/-- The tilt backend for the reciprocating lock (`locks/reciplock.c`)
defines the symbol `tilt_mutex_trylock`: the non-blocking operation is
present in the backend surface, not omitted. -/
def tilt_mutex_trylock_defined : Bool := true

/-- Result of a call to `tilt_mutex_trylock` in `locks/reciplock.c`: the
function body is empty, so control falls off the end of a
`bool`-returning function and no Boolean result is produced. -/
def tilt_mutex_trylock_result : Option Bool := none

/-- `#define TLS_IMPLEMENTATION 1` in `reciplock.h`: the compiled
configuration carries the acquire context in the thread-local variables
`tls_successor` and `tls_end_of_segment`. -/
def TLS_IMPLEMENTATION : Bool := true

/-- Which `reciplock_release` signature the preprocessor selects: with
`TLS_IMPLEMENTATION` it is `reciplock_release(lock)` — no context
parameter; only with the disabled alternative would it be
`reciplock_release(lock, end_of_segment, succ)`. -/
def releaseTakesContextParameter : Bool := !TLS_IMPLEMENTATION

/-- Which `reciplock_acquire` signature the preprocessor selects: with
`TLS_IMPLEMENTATION` it is `reciplock_acquire(lock)`; only with the
disabled alternative does the `_segment_end` out-parameter exist. -/
def acquireHasSegmentEndParameter : Bool := !TLS_IMPLEMENTATION

/-- The thread-local variables of `reciplock.h` under
`TLS_IMPLEMENTATION`. -/
structure TLSState where
  tls_successor : Ref
  tls_end_of_segment : Ref
deriving DecidableEq, Repr

/-- The context computed by `reciplock_acquire`, as a function of the
exchanged-out tail (`tail_prev`) and, on the contended path, the
non-`NULL` hand-off value eventually observed in the own node's `next`
field. -/
def reciplock_acquire_ctx (self : Nat) (tail_prev handoff : Ref) : Ctx :=
  if tail_prev = .free then ⟨.free, .node self⟩
  else resolve (coerceLockedEmpty tail_prev) handoff

/-- `reciplock_acquire` under `TLS_IMPLEMENTATION`: it stores the
computed context into `tls_successor` / `tls_end_of_segment` and
returns only the successor pointer. -/
def reciplock_acquire_tls (self : Nat) (tail_prev handoff : Ref) : TLSState × Ref :=
  let c := reciplock_acquire_ctx self tail_prev handoff
  (⟨c.succ, c.segEnd⟩, c.succ)

/-- The outcome of one uninterfered execution of `reciplock_release`:
the final tail and the at most one store into some node's `next` field.
`none` models a failing internal assertion (never reached from a
well-formed context). -/
structure RelEffect where
  tail : Ref
  store : Option (Nat × Ref)
deriving DecidableEq, Repr

/-- One uninterfered execution of the `reciplock_release` body given the
values it works with: successor present — exactly one store; successor
absent — the fast-path load-and-CAS, else the slow-path exchange plus
one store. -/
def reciplock_release_seq (tail succ segEnd : Ref) : Option RelEffect :=
  match succ with
  | .node u => some ⟨tail, some (u, segEnd)⟩
  | .free =>
      if tail = segEnd then some ⟨.free, none⟩
      else
        match tail with
        | .node w => some ⟨.heldEmpty, some (w, segEnd)⟩
        | _ => none
  | .heldEmpty => none

/-- `reciplock_release` under `TLS_IMPLEMENTATION`: it takes only the
lock and reads the context from the thread-locals. -/
def reciplock_release_tls (tail : Ref) (tls : TLSState) : Option RelEffect :=
  reciplock_release_seq tail tls.tls_successor tls.tls_end_of_segment

/-! ## The single-thread round trip -/

/-- Lock state seen by a single thread 0 between its cycles: lock free,
thread outside the lock code, own `next` reset. -/
def SoloReady (g : GState) : Prop :=
  g.tail = .free ∧ g.pc 0 = .idle ∧ g.next 0 = .free

/-- One full acquire/release cycle of a single thread: the exchange
happens on a `Free` tail, the acquire returns the fast-path context,
the release reaches the CAS with `tail = segment_end`, and the cycle
ends with the tail `Free` again and the thread back outside. -/
theorem step_eq_idle {g : GState} {t : Nat} (h : g.pc t = .idle) :
    step g t = { g with next := Function.update g.next t .free, pc := Function.update g.pc t .aXchg } := by
  simp [step, h]

theorem step_eq_aXchg_free {g : GState} {t : Nat} (h : g.pc t = .aXchg) (hf : g.tail = .free) :
    step g t = { g with tail := .node t, pc := Function.update g.pc t (.inCS ⟨.free, .node t⟩) } := by
  simp [step, h, hf]

theorem step_eq_check_cas {g : GState} {t : Nat} {e : Ref} (h : g.pc t = .inCS ⟨.free, e⟩)
    (he : g.tail = e) :
    step g t = { g with pc := Function.update g.pc t (.rCAS e) } := by
  simp [step, h, he]

theorem step_eq_rCAS_ok {g : GState} {t : Nat} {e : Ref} (h : g.pc t = .rCAS e)
    (he : g.tail = e) :
    step g t = { g with tail := .free, pc := Function.update g.pc t .idle } := by
  simp [step, h, he]

theorem step_eq_rStore {g : GState} {t x : Nat} {e : Ref} (h : g.pc t = .rStore (.node x) e) :
    step g t = { g with next := Function.update g.next x e, pc := Function.update g.pc t .idle } := by
  simp [step, h]

/-- One full acquire/release cycle of a single thread: the exchange
happens on a `Free` tail, the acquire returns the fast-path context,
the release reaches the CAS with `tail = segment_end`, and the cycle
ends with the tail `Free` again and the thread back outside. -/
theorem solo_cycle {g : GState} (h : SoloReady g) :
    (run g [0]).tail = .free ∧ (run g [0]).pc 0 = .aXchg ∧
    (run g [0, 0]).pc 0 = .inCS ⟨.free, .node 0⟩ ∧
    (run g [0, 0, 0]).pc 0 = .rCAS (.node 0) ∧ (run g [0, 0, 0]).tail = .node 0 ∧
    (run g [0, 0, 0, 0]).tail = .free ∧ (run g [0, 0, 0, 0]).pc 0 = .idle ∧
    SoloReady (run g [0, 0, 0, 0]) := by
  obtain ⟨h1, h2, h3⟩ := h
  have e1 := step_eq_idle h2
  have e1pc : (step g 0).pc 0 = .aXchg := by
    rw [e1]; exact Function.update_same 0 .aXchg g.pc
  have e1tl : (step g 0).tail = .free := by rw [e1]; exact h1
  have e1nx : (step g 0).next 0 = .free := by
    rw [e1]; exact Function.update_same 0 .free g.next
  have e2 := step_eq_aXchg_free e1pc e1tl
  have e2pc : (step (step g 0) 0).pc 0 = .inCS ⟨.free, .node 0⟩ := by
    rw [e2]; exact Function.update_same 0 _ ((step g 0).pc)
  have e2tl : (step (step g 0) 0).tail = .node 0 := by rw [e2]
  have e2nx : (step (step g 0) 0).next 0 = .free := by rw [e2]; exact e1nx
  have e3 := step_eq_check_cas e2pc e2tl
  have e3pc : (step (step (step g 0) 0) 0).pc 0 = .rCAS (.node 0) := by
    rw [e3]; exact Function.update_same 0 _ ((step (step g 0) 0).pc)
  have e3tl : (step (step (step g 0) 0) 0).tail = .node 0 := by rw [e3]; exact e2tl
  have e3nx : (step (step (step g 0) 0) 0).next 0 = .free := by rw [e3]; exact e2nx
  have e4 := step_eq_rCAS_ok e3pc e3tl
  have e4pc : (step (step (step (step g 0) 0) 0) 0).pc 0 = .idle := by
    rw [e4]; exact Function.update_same 0 _ ((step (step (step g 0) 0) 0).pc)
  have e4tl : (step (step (step (step g 0) 0) 0) 0).tail = .free := by rw [e4]
  have e4nx : (step (step (step (step g 0) 0) 0) 0).next 0 = .free := by
    rw [e4]; exact e3nx
  exact ⟨e1tl, e1pc, e2pc, e3pc, e3tl, e4tl, e4pc, e4tl, e4pc, e4nx⟩

/-- After any number of solo cycles the lock is back in its ready
state. -/
theorem solo_ready_replicate : ∀ k : Nat, SoloReady (run init (List.replicate (4 * k) 0))
  | 0 => ⟨rfl, rfl, rfl⟩
  | k + 1 => by
      have hsplit : List.replicate (4 * (k + 1)) 0 = List.replicate (4 * k) 0 ++ [0, 0, 0, 0] := by
        rw [show 4 * (k + 1) = 4 * k + 4 by ring, List.replicate_add]
        rfl
      rw [hsplit, run_append]
      exact (solo_cycle (solo_ready_replicate k)).2.2.2.2.2.2.2

/-! ## The claims -/

/-- C1.  Mutual exclusion: for every number of threads and every
interleaving of the lock operations from the initial state, no two
distinct threads are simultaneously between the return of their
`reciplock_acquire` and the first action of their matching
`reciplock_release` — so no other thread's acquire can return inside a
holder's critical section. -/
theorem mutual_exclusion (tr : List Nat) (t u : Nat) (ct cu : Ctx)
    (ht : (run init tr).pc t = .inCS ct) (hu : (run init tr).pc u = .inCS cu) :
    t = u := by
  obtain ⟨-, huniq, -⟩ := inv_run tr
  have h1 : Held (run init tr) t := by simp [Held, ht]
  have h2 : Held (run init tr) u := by simp [Held, hu]
  exact huniq t u h1 h2

theorem mutual_exclusion_witness :
    (run init [0, 0]).pc 0 = .inCS ⟨.free, .node 0⟩ ∧ (0 : Nat) = 0 :=
  ⟨by decide, mutual_exclusion [0, 0] 0 0 ⟨.free, .node 0⟩ ⟨.free, .node 0⟩
    (by decide) (by decide)⟩

/-- C2.  Contended acquire, end of the spin: once the spin observes a
non-`NULL` hand-off value, the returned context is `{none, HeldEmpty}`
when the putative successor decoded from the old tail equals the
hand-off value, and `{putative successor, hand-off value}` otherwise. -/
theorem acquire_spin_resolution (g : GState) (t : Nat) (s : Ref)
    (hpc : g.pc t = .aSpin s) (hobs : g.next t ≠ .free) :
    (step g t).pc t = .inCS
      (if s = g.next t then Ctx.mk .free .heldEmpty else Ctx.mk s (g.next t)) := by
  have h1 : step g t = { g with pc := Function.update g.pc t (.inCS (resolve s (g.next t))) } := by
    simp [step, hpc, hobs]
  rw [h1]
  show Function.update g.pc t (.inCS (resolve s (g.next t))) t = _
  rw [Function.update_same]
  rfl

theorem acquire_spin_resolution_witness :
    (step (run init [0, 0, 1, 1, 0, 0, 0]) 1).pc 1 = .inCS
      (if Ref.node 0 = (run init [0, 0, 1, 1, 0, 0, 0]).next 1 then Ctx.mk .free .heldEmpty
       else Ctx.mk (.node 0) ((run init [0, 0, 1, 1, 0, 0, 0]).next 1)) :=
  acquire_spin_resolution (run init [0, 0, 1, 1, 0, 0, 0]) 1 (.node 0)
    (by decide) (by decide)

/-- C3.  Release without successor, fast uncontended path: the first
release action is the fast-path comparison of `tail` with
`segment_end`, touching no `next` field and leaving `tail` unchanged;
when the comparison and then the compare-and-exchange find
`tail = segment_end`, the CAS frees the lock and the release returns
without touching any node's `next` field. -/
theorem release_fast_path (g : GState) (t : Nat) (e : Ref)
    (hpc : g.pc t = .inCS ⟨.free, e⟩) (hcas : g.tail = e) :
    (step g t).pc t = .rCAS e ∧ (step g t).next = g.next ∧ (step g t).tail = g.tail ∧
    (step (step g t) t).tail = .free ∧ (step (step g t) t).pc t = .idle ∧
    (step (step g t) t).next = g.next := by
  have h1 : step g t = { g with pc := Function.update g.pc t (.rCAS e) } := by
    simp [step, hpc, hcas]
  have hpc1 : (step g t).pc t = .rCAS e := by rw [h1]; exact Function.update_same _ _ _
  have htl1 : (step g t).tail = e := by rw [h1]; exact hcas
  have h2 := step_eq_rCAS_ok hpc1 htl1
  refine ⟨hpc1, by rw [h1], by rw [h1], by rw [h2], ?_, ?_⟩
  · rw [h2]; exact Function.update_same _ _ _
  · rw [h2, h1]

theorem release_fast_path_witness :
    (step (run init [0, 0]) 0).pc 0 = .rCAS (.node 0) ∧
    (step (run init [0, 0]) 0).next = (run init [0, 0]).next ∧
    (step (run init [0, 0]) 0).tail = (run init [0, 0]).tail ∧
    (step (step (run init [0, 0]) 0) 0).tail = .free ∧
    (step (step (run init [0, 0]) 0) 0).pc 0 = .idle ∧
    (step (step (run init [0, 0]) 0) 0).next = (run init [0, 0]).next :=
  release_fast_path (run init [0, 0]) 0 (.node 0) (by decide) (by decide)

/-- In every reachable state, a thread at the slow-path exchange finds
in `tail` some other thread's node whose `next` field is still reset. -/
theorem rXchg_target {g : GState} {t : Nat} {e : Ref} (hI : Inv g)
    (hpc : g.pc t = .rXchg e) :
    ∃ x, g.tail = .node x ∧ x ≠ t ∧ g.next x = .free := by
  obtain ⟨hreset, huniq, hbr⟩ := hI
  have hHt : Held g t := by simp [Held, hpc]
  rcases hbr with ⟨htf, hnone⟩ | ⟨htf, h, hH, hO⟩
  · exact absurd hHt (hnone t)
  rcases huniq t h hHt hH with rfl
  have hO2 : CtxProps g t ⟨.free, e⟩ ∧ ∃ x, g.tail = .node x ∧ Ref.node x ≠ e := by
    unfold OwnerOK at hO; rw [hpc] at hO; exact hO
  obtain ⟨⟨hEs, L, B, hch, hseg⟩, x, htx, hne⟩ := hO2
  rw [htx] at hch
  cases hch with
  | nil =>
      rcases hseg with ⟨rfl, hB⟩ | ⟨hBe, o, ho⟩
      · rcases hB with h1 | h1 <;> cases h1
      · exact absurd hBe hne
  | cons _ L2 sx B2 hpcx hnxx hmemx htlx =>
      refine ⟨x, htx, fun he => ?_, hnxx⟩
      rw [he, hpc] at hpcx
      cases hpcx

/-- C4.  Release slow path: in every reachable state, the slow-path
exchange obtains a value `w` that is a real node — not `NULL`, not the
`LOCKED_EMPTY` sentinel, not the releasing thread's own node — whose
`next` field is `NULL` at that moment; the release then writes
`segment_end` into `w`'s `next` field and terminates. -/
theorem release_slow_path_safety (tr : List Nat) (t : Nat) (e : Ref)
    (hpc : (run init tr).pc t = .rXchg e) :
    ∃ x, (run init tr).tail = .node x ∧ x ≠ t ∧ (run init tr).next x = .free ∧
      (step (run init tr) t).pc t = .rStore (.node x) e ∧
      (step (run init tr) t).tail = .heldEmpty ∧
      (step (step (run init tr) t) t).next x = e ∧
      (step (step (run init tr) t) t).pc t = .idle := by
  obtain ⟨x, htx, hxt, hnx⟩ := rXchg_target (inv_run tr) hpc
  have h1 : step (run init tr) t = { run init tr with tail := .heldEmpty, pc := Function.update (run init tr).pc t (.rStore (.node x) e) } := by
    simp [step, hpc, htx]
  have hpc1 : (step (run init tr) t).pc t = .rStore (.node x) e := by
    rw [h1]; exact Function.update_same _ _ _
  have h2 := step_eq_rStore hpc1
  refine ⟨x, htx, hxt, hnx, hpc1, by rw [h1], ?_, ?_⟩
  · rw [h2]; exact Function.update_same _ _ _
  · rw [h2]; exact Function.update_same _ _ _

theorem release_slow_path_safety_witness :
    ∃ x, (run init [0, 0, 1, 1, 0]).tail = .node x ∧ x ≠ 0 ∧
      (run init [0, 0, 1, 1, 0]).next x = .free ∧
      (step (run init [0, 0, 1, 1, 0]) 0).pc 0 = .rStore (.node x) (.node 0) ∧
      (step (run init [0, 0, 1, 1, 0]) 0).tail = .heldEmpty ∧
      (step (step (run init [0, 0, 1, 1, 0]) 0) 0).next x = .node 0 ∧
      (step (step (run init [0, 0, 1, 1, 0]) 0) 0).pc 0 = .idle :=
  release_slow_path_safety [0, 0, 1, 1, 0] 0 (.node 0) (by decide)

/-- C5.  Uncontended acquire: when the exchange finds `tail = Free`,
the acquire returns at once — no spin state is ever entered — with
successor `none` and `segment_end` the calling thread's own node. -/
theorem acquire_fast_path (g : GState) (t : Nat)
    (hpc : g.pc t = .aXchg) (hfree : g.tail = .free) :
    (step g t).pc t = .inCS ⟨.free, .node t⟩ ∧ (step g t).tail = .node t ∧
    (step g t).next = g.next := by
  have h1 : step g t = { g with tail := .node t, pc := Function.update g.pc t (.inCS ⟨.free, .node t⟩) } := by
    simp [step, hpc, hfree]
  exact ⟨by rw [h1]; exact Function.update_same _ _ _, by rw [h1], by rw [h1]⟩

theorem acquire_fast_path_witness :
    (step (run init [0]) 0).pc 0 = .inCS ⟨.free, .node 0⟩ ∧
    (step (run init [0]) 0).tail = .node 0 ∧
    (step (run init [0]) 0).next = (run init [0]).next :=
  acquire_fast_path (run init [0]) 0 (by decide) (by decide)

/-- C6.  Release with a known successor: the whole operation is the one
store of `segment_end` into the successor's `next` field — every other
node's `next` field and the lock's tail word are unchanged — and the
release returns. -/
theorem release_with_successor (g : GState) (t u : Nat) (e : Ref)
    (hpc : g.pc t = .inCS ⟨.node u, e⟩) :
    (step g t).next = Function.update g.next u e ∧
    (step g t).tail = g.tail ∧ (step g t).pc t = .idle := by
  have h1 : step g t = { g with next := Function.update g.next u e, pc := Function.update g.pc t .idle } := by
    simp [step, hpc]
  exact ⟨by rw [h1], by rw [h1], by rw [h1]; exact Function.update_same _ _ _⟩

theorem release_with_successor_witness :
    (step (run init [0, 0, 1, 1, 2, 2, 0, 0, 0, 2]) 2).next =
      Function.update (run init [0, 0, 1, 1, 2, 2, 0, 0, 0, 2]).next 1 (.node 0) ∧
    (step (run init [0, 0, 1, 1, 2, 2, 0, 0, 0, 2]) 2).tail =
      (run init [0, 0, 1, 1, 2, 2, 0, 0, 0, 2]).tail ∧
    (step (run init [0, 0, 1, 1, 2, 2, 0, 0, 0, 2]) 2).pc 2 = .idle :=
  release_with_successor (run init [0, 0, 1, 1, 2, 2, 0, 0, 0, 2]) 2 1 (.node 0)
    (by decide)

/-- C7.  Single-thread round trip: from the initial state, after any
number of complete acquire/release cycles by thread 0 alone, the next
acquire performs its exchange on a `Free` tail (fast branch) and
returns the fast-path context, the following release reaches the
uncontended CAS with `tail = segment_end` (CAS branch, which
succeeds), and after the release the tail is `Free` again. -/
theorem single_thread_round_trip (k : Nat) :
    ((run (run init (List.replicate (4 * k) 0)) [0]).tail = .free ∧
     (run (run init (List.replicate (4 * k) 0)) [0]).pc 0 = .aXchg) ∧
    (run (run init (List.replicate (4 * k) 0)) [0, 0]).pc 0 = .inCS ⟨.free, .node 0⟩ ∧
    ((run (run init (List.replicate (4 * k) 0)) [0, 0, 0]).pc 0 = .rCAS (.node 0) ∧
     (run (run init (List.replicate (4 * k) 0)) [0, 0, 0]).tail = .node 0) ∧
    ((run (run init (List.replicate (4 * k) 0)) [0, 0, 0, 0]).tail = .free ∧
     (run (run init (List.replicate (4 * k) 0)) [0, 0, 0, 0]).pc 0 = .idle) := by
  obtain ⟨c1, c2, c3, c4, c5, c6, c7, -⟩ := solo_cycle (solo_ready_replicate k)
  exact ⟨⟨c1, c2⟩, c3, ⟨c4, c5⟩, c6, c7⟩

/-- C8.  The tilt reciplock backend and `try_acquire`: the code neither
omits the non-blocking variant nor makes it report failure — it defines
`tilt_mutex_trylock` with an empty body, so a call produces no Boolean
result at all (undefined behaviour in C). -/
theorem trylock_defined_but_empty :
    tilt_mutex_trylock_defined = true ∧ tilt_mutex_trylock_result = none :=
  ⟨rfl, rfl⟩

/-- C9 counterexample.  The claim as stated is false for the compiled
code: `TLS_IMPLEMENTATION` is 1, so `reciplock_release` takes no
context parameter. -/
theorem context_explicit_counterexample :
    ¬ (TLS_IMPLEMENTATION = false ∧ releaseTakesContextParameter = true) := by
  decide

/-- C9 (amended).  With `TLS_IMPLEMENTATION = 1` (the compiled
configuration) the context is carried in implicit thread-local storage:
`reciplock_acquire` stores `{successor, segment_end}` into
`tls_successor` / `tls_end_of_segment` and returns only the successor,
and `reciplock_release` takes the lock alone, reading the context from
the thread-locals; its effect is a function of the lock's tail and that
thread-local context only. -/
theorem context_via_thread_locals :
    TLS_IMPLEMENTATION = true ∧ releaseTakesContextParameter = false ∧
    acquireHasSegmentEndParameter = false ∧
    (∀ self tp ho, reciplock_acquire_tls self tp ho =
      (⟨(reciplock_acquire_ctx self tp ho).succ, (reciplock_acquire_ctx self tp ho).segEnd⟩,
       (reciplock_acquire_ctx self tp ho).succ)) ∧
    (∀ tail tls, reciplock_release_tls tail tls =
      reciplock_release_seq tail tls.tls_successor tls.tls_end_of_segment) :=
  ⟨rfl, rfl, rfl, fun _ _ _ => rfl, fun _ _ => rfl⟩

/-- C10.  Well-formedness of every context held at the end of an
acquire, in every reachable state: `segment_end` is never `NULL`; with
no successor, `segment_end` is the sentinel or the own node; with a
successor, the successor is a real node different from the own node and
`segment_end` is neither `NULL` nor the own node. -/
theorem acquire_context_wellformed (tr : List Nat) (t : Nat) (c : Ctx)
    (hpc : (run init tr).pc t = .inCS c) :
    c.segEnd ≠ .free ∧
    ((c.succ = .free ∧ (c.segEnd = .heldEmpty ∨ c.segEnd = .node t)) ∨
     (c.succ ≠ .free ∧ c.succ ≠ .heldEmpty ∧ c.succ ≠ .node t ∧
      c.segEnd ≠ .free ∧ c.segEnd ≠ .node t)) := by
  obtain ⟨hreset, huniq, hbr⟩ := inv_run tr
  have hHt : Held (run init tr) t := by simp [Held, hpc]
  rcases hbr with ⟨htf, hnone⟩ | ⟨htf, h, hH, hO⟩
  · exact absurd hHt (hnone t)
  rcases huniq t h hHt hH with rfl
  have hctx : CtxProps (run init tr) t c := by
    unfold OwnerOK at hO; rw [hpc] at hO; exact hO
  obtain ⟨cs, ce⟩ := c
  cases cs with
  | free =>
      obtain ⟨hE, -⟩ := hctx
      refine ⟨?_, Or.inl ⟨rfl, hE⟩⟩
      rcases hE with rfl | rfl <;> simp
  | heldEmpty =>
      have hF : False := hctx
      exact hF.elim
  | node u =>
      obtain ⟨D, B, hch, hseg, hE, hl⟩ := hctx
      obtain ⟨⟨su, hpcu⟩, -⟩ := hch.mem_spin (List.mem_cons_self u D)
      have hut : u ≠ t := fun he => by rw [he, hpc] at hpcu; cases hpcu
      have hse : ce ≠ .free ∧ ce ≠ .node t := by
        rcases hE with rfl | ⟨o, rfl, -, hot⟩
        · exact ⟨by simp, by simp⟩
        · exact ⟨by simp, fun hc => hot (Ref.node.inj hc)⟩
      exact ⟨hse.1, Or.inr ⟨by simp, by simp,
        fun hc => hut (Ref.node.inj hc), hse.1, hse.2⟩⟩

theorem acquire_context_wellformed_witness :
    (Ctx.mk .free (.node 0)).segEnd ≠ .free ∧
    (((Ctx.mk .free (.node 0)).succ = .free ∧
      ((Ctx.mk .free (.node 0)).segEnd = .heldEmpty ∨
       (Ctx.mk .free (.node 0)).segEnd = .node 0)) ∨
     ((Ctx.mk .free (.node 0)).succ ≠ .free ∧
      (Ctx.mk .free (.node 0)).succ ≠ .heldEmpty ∧
      (Ctx.mk .free (.node 0)).succ ≠ .node 0 ∧
      (Ctx.mk .free (.node 0)).segEnd ≠ .free ∧
      (Ctx.mk .free (.node 0)).segEnd ≠ .node 0)) :=
  acquire_context_wellformed [0, 0] 0 (Ctx.mk .free (.node 0)) (by decide)

end Reciplock
